import Mathlib

/-!
Verification of the ezformant LPC analysis core (`src/webapp/src/ui/App.tsx`).

The numeric code is embedded shallowly: JavaScript `number` arithmetic is
idealised as exact rational (`ℚ`) or real (`ℝ`) arithmetic.  The only
transcendental ingredient, the raised-cosine window weight, is abstracted as a
function parameter `w : ℕ → ℕ → α` (array length, index ↦ weight); the real
instantiation `hammingWeightR` recovers the source formula over `ℝ`.
For the one claim where IEEE special values matter, a separate NaN-aware
value type `JVal` models JavaScript float semantics of the reached operations.
-/

namespace Ezformant

/-- The `MAX_HISTORY` constant from App.tsx. -/
def MAX_HISTORY : ℕ := 1000

/-- The `FORMANT_INTERVAL_MS` constant from App.tsx. -/
def FORMANT_INTERVAL_MS : ℕ := 100

/-- The `1e-12` energy floor used by `levinsonForLpc`. -/
def lpcEpsilon : ℚ := 1e-12

/-! ### Preprocessing (`subtractMeanInPlace`, `applyHammingWindowInPlace`,
`preEmphasizeInPlace`, `preprocessSignalForLpc`) -/

/-- Model of `subtractMeanInPlace`: returns early on an empty frame, otherwise subtracts
the arithmetic mean from every sample. -/
def subtractMeanInPlace {α : Type} [Field α] (l : List α) : List α :=
  if l.length = 0 then l
  else l.map (fun v => v - l.sum / (l.length : α))

/-- Model of `applyHammingWindowInPlace`, with the cosine weight
`0.54 − 0.46·cos(2π·i/(n−1))` abstracted as `w n i`: returns early on an empty
frame, otherwise multiplies sample `i` by `w n i`. -/
def applyHammingWindowInPlace {α : Type} [Field α] (w : ℕ → ℕ → α)
    (l : List α) : List α :=
  if l.length = 0 then l
  else List.ofFn (fun i : Fin l.length => l.getD i 0 * w l.length i)

/-- The source's window weight over `ℝ`: `0.54 - 0.46 * cos(2π * (i / (n-1)))`. -/
noncomputable def hammingWeightR (n i : ℕ) : ℝ :=
  0.54 - 0.46 * Real.cos (2 * Real.pi * ((i : ℝ) / ((n : ℝ) - 1)))

/-- Loop body of `preEmphasizeInPlace`: `data[i] = x - alpha * prev` where
`prev` is the original previous sample. -/
def preEmpAux {α : Type} [Field α] (alpha : α) : α → List α → List α
  | _, [] => []
  | prev, x :: xs => (x - alpha * prev) :: preEmpAux alpha x xs

/-- Model of `preEmphasizeInPlace`: returns early on an empty frame, otherwise
`data[0] = (1 - alpha) * data[0]` and `data[i] = x[i] - alpha * x[i-1]` using
the original previous sample. -/
def preEmphasizeInPlace {α : Type} [Field α] (alpha : α) (l : List α) : List α :=
  match l with
  | [] => []
  | x :: xs => (1 - alpha) * x :: preEmpAux alpha x xs

/-- Model of `preprocessSignalForLpc`: mean subtraction, then Hamming window, then
pre-emphasis, in place and in this order. -/
def preprocessSignalForLpc {α : Type} [Field α] (w : ℕ → ℕ → α) (alpha : α)
    (l : List α) : List α :=
  preEmphasizeInPlace alpha (applyHammingWindowInPlace w (subtractMeanInPlace l))

/-! ### Autocorrelation (`autocorrelateForLpc`) -/

/-- Inner accumulation loop of `autocorrelateForLpc`:
`for (i = 0; i + lag < n; i++) acc += x[i] * x[i+lag]`. -/
def autoAcc (x : List ℚ) (lag : ℕ) : ℚ :=
  (List.range (x.length - lag)).foldl
    (fun acc i => acc + x.getD i 0 * x.getD (i + lag) 0) 0

/-- Model of `autocorrelateForLpc`: result vector of length `maxLag + 1`, entry `lag`
holds the accumulated lag-`lag` product sum. -/
def autocorrelateForLpc (x : List ℚ) (maxLag : ℕ) : List ℚ :=
  List.ofFn (fun lag : Fin (maxLag + 1) => autoAcc x lag)

/-! ### Levinson-Durbin (`levinsonForLpc`), code side.

The coefficient array `Float64Array(order+1)` (zero beyond written indices) is
modelled as a total function `ℕ → ℚ` that is zero outside `[0, i]`. -/

/-- Initial solver state: `a = [1, 0, …]`,
`e = |r[0]| < 1e-12 ? 1e-12 : r[0]`. -/
def lvInit (r : List ℚ) : (ℕ → ℚ) × ℚ :=
  (fun j => if j = 0 then 1 else 0,
   if |r.getD 0 0| < lpcEpsilon then lpcEpsilon else r.getD 0 0)

/-- One iteration `i` of the solver loop: reflection coefficient
`k = -(r[i] + Σ_{j=1}^{i-1} a[j]·r[i-j]) / e`, simultaneous coefficient update
via the `aNext` copy, energy update `e *= 1 - k*k` floored at `1e-12`. -/
def lvStep (r : List ℚ) (i : ℕ) (st : (ℕ → ℚ) × ℚ) : (ℕ → ℚ) × ℚ :=
  let a := st.1
  let e := st.2
  let acc := r.getD i 0 + ∑ j in Finset.Ico 1 i, a j * r.getD (i - j) 0
  let k := -acc / e
  let a' := fun j =>
    if j = i then k
    else if 1 ≤ j ∧ j < i then a j + k * a (i - j)
    else a j
  let e' := e * (1 - k * k)
  (a', if e' < lpcEpsilon then lpcEpsilon else e')

/-- Solver state after iterations `1..i` of the loop. -/
def lvIter (r : List ℚ) : ℕ → (ℕ → ℚ) × ℚ
  | 0 => lvInit r
  | i + 1 => lvStep r (i + 1) (lvIter r i)

/-- Model of `levinsonForLpc`: throws (modelled as `none`) when
`r.length < order + 1`, otherwise the coefficient vector of length
`order + 1` after all loop iterations. -/
def levinsonForLpc (order : ℕ) (r : List ℚ) : Option (List ℚ) :=
  if r.length < order + 1 then none
  else some (List.ofFn (fun j : Fin (order + 1) => (lvIter r order).1 j))

/-- Prediction-error energies after 0, 1, …, `order` iterations. -/
def lvEnergies (r : List ℚ) (order : ℕ) : List ℚ :=
  List.ofFn (fun i : Fin (order + 1) => (lvIter r i).2)

/-! ### Levinson-Durbin, specification side.

Written from the spec's words: maintain a coefficient vector `a[0..i]` with
`a[0] = 1` always, grown by one entry per iteration. -/

/-- Spec recursion, iteration `i`: `k = −(r[i] + Σ_{j=1}^{i−1} a[j]·r[i−j]) / e`;
`a'[0] = 1`, `a'[j] = a[j] + k·a[i−j]` for `j = 1..i−1`, `a'[i] = k`;
`e = e·(1−k²)` floored at the epsilon. -/
def lvSpecStep (r : List ℚ) (i : ℕ) (p : List ℚ × ℚ) : List ℚ × ℚ :=
  let k := -(r.getD i 0 + ∑ j in Finset.Ico 1 i, p.1.getD j 0 * r.getD (i - j) 0) / p.2
  let a' := List.ofFn (fun j : Fin (i + 1) =>
    if (j : ℕ) = 0 then 1
    else if (j : ℕ) = i then k
    else p.1.getD j 0 + k * p.1.getD (i - j) 0)
  let e' := p.2 * (1 - k ^ 2)
  (a', if e' < lpcEpsilon then lpcEpsilon else e')

/-- Spec recursion state after iterations `1..i`: starts from `a = [1]` and
`e = r[0]` clamped to the floor when `|r[0]|` is below it. -/
def lvSpecIter (r : List ℚ) : ℕ → List ℚ × ℚ
  | 0 => ([1], if |r.getD 0 0| < lpcEpsilon then lpcEpsilon else r.getD 0 0)
  | i + 1 => lvSpecStep r (i + 1) (lvSpecIter r i)

/-- The spec's reference Levinson-Durbin recursion (claim wording). -/
def levinsonSpec (L : ℕ) (r : List ℚ) : List ℚ := (lvSpecIter r L).1

/-! ### Debug LPC pipeline (`computeLpcCoefficientsForDebug`) -/

/-- The try/catch conversion around `levinsonForLpc` in the debug pipeline. -/
def lpcCoefficientsOrEmpty (order : ℕ) (r : List ℚ) : List ℚ :=
  match levinsonForLpc order r with
  | none => []
  | some a => a

/-- Decimation loop of `computeLpcCoefficientsForDebug`: target length
`max(ceil(N / df), 1)`, entry `j` reads `input[j * df]` (zero when the read
runs past the end, as the `Float64Array` slot is never written). -/
def downsampleForLpc (input : List ℚ) (df : ℕ) : List ℚ :=
  List.ofFn (fun j : Fin (max (Int.ceil ((input.length : ℚ) / (df : ℚ))).toNat 1) =>
    input.getD ((j : ℕ) * df) 0)

/-- Model of `computeLpcCoefficientsForDebug`: guards non-positive order, non-positive
downsample factor (treated as 1) and empty input; then decimates,
preprocesses with `alpha = 0.97`, autocorrelates to lag `order` and solves. -/
def computeLpcCoefficientsForDebug (w : ℕ → ℕ → ℚ) (input : List ℚ)
    (order : ℤ) (downsampleFactor : ℤ) : List ℚ :=
  if order ≤ 0 then []
  else
    let df : ℤ := if downsampleFactor ≤ 0 then 1 else downsampleFactor
    if input.length = 0 then []
    else
      let downsampled := downsampleForLpc input df.toNat
      let L := order.toNat
      let r := autocorrelateForLpc (preprocessSignalForLpc w 0.97 downsampled) L
      lpcCoefficientsOrEmpty L r

/-! ### Formant history buffer (`addFormantsToHistory`) -/

/-- Model of `addFormantsToHistory` with the payload abstracted: the next virtual time
is `0` for an empty history, otherwise `lastTime + FORMANT_INTERVAL_MS`; the
tagged sample is pushed at the tail and the head is shifted off when the
length exceeds `MAX_HISTORY`. -/
def addFormantsToHistory {α : Type} (history : List (ℕ × α)) (s : α) :
    List (ℕ × α) :=
  let lastTime := (history.getLast?.map Prod.fst).getD 0
  let nextTime := if history.length = 0 then 0 else lastTime + FORMANT_INTERVAL_MS
  let h := history ++ [(nextTime, s)]
  if MAX_HISTORY < h.length then h.tail else h

/-- Running the history buffer from empty over a sequence of samples. -/
def histRun {α : Type} (rs : List α) : List (ℕ × α) :=
  rs.foldl addFormantsToHistory []

/-- The expected tagged sequence: sample `i` (0-based insertion index) carries
virtual time `FORMANT_INTERVAL_MS * i`. -/
def tagHist {α : Type} (rs : List α) : List (ℕ × α) :=
  ((List.range rs.length).zip rs).map (fun p => (FORMANT_INTERVAL_MS * p.1, p.2))

/-! ### JavaScript number semantics where IEEE special values matter -/

/-- A JavaScript `number` (or a missing value), with the finite payload
idealised as a rational. -/
inductive JVal : Type where
  | undef : JVal
  | nan : JVal
  | inf : JVal
  | ninf : JVal
  | fin : ℚ → JVal
deriving DecidableEq

/-- IEEE multiplication as JS performs it on these values (`undefined`
coerces to NaN; `0 * ±∞ = NaN`). -/
def jsMul : JVal → JVal → JVal
  | JVal.fin a, JVal.fin b => JVal.fin (a * b)
  | JVal.fin a, JVal.inf =>
      if a = 0 then JVal.nan else if 0 < a then JVal.inf else JVal.ninf
  | JVal.fin a, JVal.ninf =>
      if a = 0 then JVal.nan else if 0 < a then JVal.ninf else JVal.inf
  | JVal.inf, JVal.fin b =>
      if b = 0 then JVal.nan else if 0 < b then JVal.inf else JVal.ninf
  | JVal.ninf, JVal.fin b =>
      if b = 0 then JVal.nan else if 0 < b then JVal.ninf else JVal.inf
  | JVal.inf, JVal.inf => JVal.inf
  | JVal.inf, JVal.ninf => JVal.ninf
  | JVal.ninf, JVal.inf => JVal.ninf
  | JVal.ninf, JVal.ninf => JVal.inf
  | _, _ => JVal.nan

/-- IEEE subtraction (`∞ − ∞ = NaN`). -/
def jsSub : JVal → JVal → JVal
  | JVal.fin a, JVal.fin b => JVal.fin (a - b)
  | JVal.fin _, JVal.inf => JVal.ninf
  | JVal.fin _, JVal.ninf => JVal.inf
  | JVal.inf, JVal.fin _ => JVal.inf
  | JVal.ninf, JVal.fin _ => JVal.ninf
  | JVal.inf, JVal.ninf => JVal.inf
  | JVal.ninf, JVal.inf => JVal.ninf
  | _, _ => JVal.nan

/-- IEEE division (`0 / 0 = NaN`, `a / 0 = ±∞` for `a ≠ 0`). -/
def jsDiv : JVal → JVal → JVal
  | JVal.fin a, JVal.fin b =>
      if b = 0 then
        (if a = 0 then JVal.nan else if 0 < a then JVal.inf else JVal.ninf)
      else JVal.fin (a / b)
  | JVal.fin _, JVal.inf => JVal.fin 0
  | JVal.fin _, JVal.ninf => JVal.fin 0
  | JVal.inf, JVal.fin b => if 0 ≤ b then JVal.inf else JVal.ninf
  | JVal.ninf, JVal.fin b => if 0 ≤ b then JVal.ninf else JVal.inf
  | _, _ => JVal.nan

/-- Model of `Math.cos`: NaN on NaN/±∞ input, finite on finite input (the finite
behaviour abstracted as `cosQ`). -/
def jsCos (cosQ : ℚ → ℚ) : JVal → JVal
  | JVal.fin q => JVal.fin (cosQ q)
  | _ => JVal.nan

/-- Model of `applyHammingWindowInPlace` with JavaScript float semantics:
`ratio = i / (n - 1)`, `w = 0.54 - 0.46 * cos(2π * ratio)`, `data[i] *= w`;
only `n == 0` is guarded.  `cosQ` and `piQ` abstract the finite values of
`Math.cos` and `Math.PI`. -/
def applyHammingWindowInPlaceJs (cosQ : ℚ → ℚ) (piQ : ℚ) (l : List ℚ) :
    List JVal :=
  if l.length = 0 then []
  else
    List.ofFn (fun i : Fin l.length =>
      jsMul (JVal.fin (l.getD i 0))
        (jsSub (JVal.fin 0.54)
          (jsMul (JVal.fin 0.46)
            (jsCos cosQ
              (jsMul (JVal.fin (2 * piQ))
                (jsDiv (JVal.fin (i : ℚ)) (JVal.fin ((l.length : ℚ) - 1))))))))

/-! ### Published formant state, sanitizer and freeze (`worker.onmessage`,
`toggleAnalysisFreeze`, `calcFormants`) -/

/-- The published formant record. -/
structure Formants : Type where
  f0 : ℚ
  f1 : ℚ
  f2 : ℚ
  f3 : ℚ
  f4 : ℚ
deriving DecidableEq

/-- The `sanitize` helper: `Number.isFinite(value) && value > 0 ? value : 0`. -/
def sanitize : JVal → ℚ
  | JVal.fin q => if 0 < q then q else 0
  | _ => 0

/-- A successful `calcFormants` worker response before sanitisation. -/
structure RawResponse : Type where
  pitch : JVal
  r1 : JVal
  r2 : JVal
  r3 : JVal
  r4 : JVal
deriving DecidableEq

/-- The analysis-relevant state of the app component. -/
structure AppState : Type where
  frozen : Bool
  running : Bool
  formants : Formants
  history : List (ℕ × Formants)
deriving DecidableEq

/-- Success branch of `worker.onmessage` for `calcFormants`: discarded while
frozen; otherwise all five fields are sanitised, published, and appended to
the history. -/
def applyResponse (s : AppState) (r : RawResponse) : AppState :=
  if s.frozen then s
  else
    let f : Formants :=
      ⟨sanitize r.pitch, sanitize r.r1, sanitize r.r2, sanitize r.r3, sanitize r.r4⟩
    { s with formants := f, history := addFormantsToHistory s.history f }

/-- Events of the analysis loop. -/
inductive AppEvent : Type where
  | toggleFreeze : AppEvent
  | tick : AppEvent
  | response : RawResponse → AppEvent
deriving DecidableEq

/-- One event step; the boolean records whether a `calcFormants` request was
dispatched.  `toggleFreeze` mirrors `toggleAnalysisFreeze` (freeze stops the
loops, unfreeze restarts them); `tick` mirrors the `calcFormants` guard
`if (isFrozen || !analysisRunning) return`; `response` mirrors the
`onmessage` success branch with its `message.pitch !== undefined` guard. -/
def stepEvent (s : AppState) : AppEvent → AppState × Bool
  | AppEvent.toggleFreeze =>
      if s.frozen then ({ s with frozen := false, running := true }, false)
      else ({ s with frozen := true, running := false }, false)
  | AppEvent.tick =>
      if s.frozen ∨ ¬s.running then (s, false) else (s, true)
  | AppEvent.response r =>
      if r.pitch = JVal.undef then (s, false) else (applyResponse s r, false)

/-- Run a sequence of events. -/
def runEvents (s : AppState) (evs : List AppEvent) : AppState :=
  evs.foldl (fun s e => (stepEvent s e).1) s

/-- Number of `calcFormants` requests dispatched along a sequence of events. -/
def dispatchCount : AppState → List AppEvent → ℕ
  | _, [] => 0
  | s, e :: es =>
      (if (stepEvent s e).2 then 1 else 0) + dispatchCount (stepEvent s e).1 es

/-! ## Helper lemmas -/

lemma foldl_add_range (f : ℕ → ℚ) :
    ∀ (m : ℕ) (c : ℚ),
      (List.range m).foldl (fun acc i => acc + f i) c = c + ∑ i in Finset.range m, f i := by
  intro m
  induction m with
  | zero => intro c; simp
  | succ m ih =>
      intro c
      rw [List.range_succ, List.foldl_append, ih c, Finset.sum_range_succ]
      simp [add_assoc]

lemma autoAcc_eq (x : List ℚ) (lag : ℕ) :
    autoAcc x lag = ∑ i in Finset.range (x.length - lag), x.getD i 0 * x.getD (i + lag) 0 := by
  unfold autoAcc
  rw [foldl_add_range]
  simp

lemma getD_ofFn {α : Type} {n : ℕ} (f : Fin n → α) (d : α) (k : ℕ) (h : k < n) :
    (List.ofFn f).getD k d = f ⟨k, h⟩ := by
  rw [List.getD_eq_getElem _ _ (by simpa using h), List.getElem_ofFn]

/-! ## Claims -/

/-- C7: for every frame `x` of length `N` and every maximum lag `L`, the
autocorrelation estimator returns a vector of length `L+1` with
`r[k] = Σ_{i=0}^{N−1−k} x[i]·x[i+k]` for every `k ≤ L`; for `N = 0` it
returns the all-zero vector. -/
theorem autocorrelate_length_formula (x : List ℚ) (L : ℕ) :
    (autocorrelateForLpc x L).length = L + 1
    ∧ (∀ k : Fin (L + 1), (autocorrelateForLpc x L).getD k 0 =
        ∑ i in Finset.range (x.length - (k : ℕ)), x.getD i 0 * x.getD (i + (k : ℕ)) 0)
    ∧ autocorrelateForLpc ([] : List ℚ) L = List.replicate (L + 1) 0 := by
  refine ⟨by simp [autocorrelateForLpc], fun k => ?_, ?_⟩
  · rw [autocorrelateForLpc, getD_ofFn _ _ _ k.isLt]
    exact autoAcc_eq x k
  · have h : ∀ lag : Fin (L + 1), autoAcc ([] : List ℚ) lag = 0 := by
      intro lag; simp [autoAcc]
    simp only [autocorrelateForLpc]
    calc List.ofFn (fun lag : Fin (L + 1) => autoAcc ([] : List ℚ) lag)
        = List.ofFn (fun _ : Fin (L + 1) => (0 : ℚ)) := by
          exact congrArg _ (funext h)
      _ = List.replicate (L + 1) 0 := List.ofFn_const _ _

/-- C3 (code bug exhibit): on a one-sample frame the windowing step computes
`ratio = 0 / 0 = NaN` (only `N == 0` is guarded, not `N − 1 == 0`), so the
windowed output is NaN — for every finite behaviour of `Math.cos` and
`Math.PI` and every sample value. -/
theorem hamming_window_one_sample_nan (cosQ : ℚ → ℚ) (piQ : ℚ) (q : ℚ) :
    applyHammingWindowInPlaceJs cosQ piQ [q] = [JVal.nan] := by
  show (if ([q] : List ℚ).length = 0 then [] else _) = [JVal.nan]
  norm_num [List.ofFn_succ, jsDiv, jsMul, jsSub, jsCos]

/-- C8: the Levinson-Durbin solver fails (throws, modelled `none`) if and only
if `L + 1 > length r`; the debug pipeline's catch converts that failure into
the empty coefficient list. -/
theorem levinson_failure_iff_short_input (L : ℕ) (r : List ℚ) :
    (levinsonForLpc L r = none ↔ r.length < L + 1)
    ∧ (r.length < L + 1 → lpcCoefficientsOrEmpty L r = []) := by
  refine ⟨⟨fun h => ?_, fun h => ?_⟩, fun h => ?_⟩
  · by_contra hlt
    simp [levinsonForLpc, hlt] at h
  · simp [levinsonForLpc, h]
  · simp [lpcCoefficientsOrEmpty, levinsonForLpc, h]

/-- Witness for C8 at `L = 1`, `r = []`. -/
theorem levinson_failure_iff_short_input_witness :
    (([] : List ℚ).length < 1 + 1) ∧ lpcCoefficientsOrEmpty 1 [] = [] :=
  ⟨by decide, (levinson_failure_iff_short_input 1 []).2 (by decide)⟩

lemma sanitize_nonneg (v : JVal) : 0 ≤ sanitize v := by
  cases v with
  | fin q =>
      simp only [sanitize]
      split
      · linarith
      · exact le_refl 0
  | undef => exact le_refl 0
  | nan => exact le_refl 0
  | inf => exact le_refl 0
  | ninf => exact le_refl 0

/-- C9: the `onmessage` success branch sanitises every field before
publishing: the new formants record and the new history entry are built from
`sanitize` of the raw fields, each published value is non-negative, and
`sanitize` maps undefined, NaN, infinite and non-positive inputs to the
sentinel `0` while keeping strictly positive finite inputs. -/
theorem published_formants_sanitized (s : AppState) (r : RawResponse)
    (hf : s.frozen = false) :
    (applyResponse s r).formants =
      ⟨sanitize r.pitch, sanitize r.r1, sanitize r.r2, sanitize r.r3, sanitize r.r4⟩
    ∧ (applyResponse s r).history =
        addFormantsToHistory s.history (applyResponse s r).formants
    ∧ (0 ≤ (applyResponse s r).formants.f0 ∧ 0 ≤ (applyResponse s r).formants.f1
        ∧ 0 ≤ (applyResponse s r).formants.f2 ∧ 0 ≤ (applyResponse s r).formants.f3
        ∧ 0 ≤ (applyResponse s r).formants.f4)
    ∧ (sanitize JVal.undef = 0 ∧ sanitize JVal.nan = 0
        ∧ sanitize JVal.inf = 0 ∧ sanitize JVal.ninf = 0)
    ∧ (∀ p : ℚ, p ≤ 0 → sanitize (JVal.fin p) = 0)
    ∧ (∀ p : ℚ, 0 < p → sanitize (JVal.fin p) = p) := by
  have happ : applyResponse s r =
      { s with
        formants :=
          ⟨sanitize r.pitch, sanitize r.r1, sanitize r.r2, sanitize r.r3, sanitize r.r4⟩,
        history :=
          addFormantsToHistory s.history
            ⟨sanitize r.pitch, sanitize r.r1, sanitize r.r2, sanitize r.r3, sanitize r.r4⟩ } := by
    simp [applyResponse, hf]
  refine ⟨by rw [happ], by rw [happ], ?_, ⟨rfl, rfl, rfl, rfl⟩, ?_, ?_⟩
  · rw [happ]
    exact ⟨sanitize_nonneg _, sanitize_nonneg _, sanitize_nonneg _,
      sanitize_nonneg _, sanitize_nonneg _⟩
  · intro p hp
    simp [sanitize, not_lt.mpr hp]
  · intro p hp
    simp [sanitize, hp]

/-- Witness for C9 at a concrete unfrozen state and a mixed raw response. -/
theorem published_formants_sanitized_witness :
    ((⟨false, true, ⟨0, 0, 0, 0, 0⟩, []⟩ : AppState).frozen = false)
    ∧ ((-3 : ℚ) ≤ 0)
    ∧ (applyResponse ⟨false, true, ⟨0, 0, 0, 0, 0⟩, []⟩
        ⟨JVal.fin 120, JVal.fin 500, JVal.nan, JVal.inf, JVal.undef⟩).formants =
        ⟨sanitize (JVal.fin 120), sanitize (JVal.fin 500), sanitize JVal.nan,
          sanitize JVal.inf, sanitize JVal.undef⟩
    ∧ sanitize (JVal.fin (-3)) = 0 :=
  ⟨rfl, by norm_num,
    (published_formants_sanitized ⟨false, true, ⟨0, 0, 0, 0, 0⟩, []⟩
      ⟨JVal.fin 120, JVal.fin 500, JVal.nan, JVal.inf, JVal.undef⟩ rfl).1,
    (published_formants_sanitized ⟨false, true, ⟨0, 0, 0, 0, 0⟩, []⟩
      ⟨JVal.fin 120, JVal.fin 500, JVal.nan, JVal.inf, JVal.undef⟩ rfl).2.2.2.2.1
      (-3) (by norm_num)⟩

lemma stepEvent_frozen (s : AppState) (e : AppEvent) (hs : s.frozen = true)
    (he : e ≠ AppEvent.toggleFreeze) : stepEvent s e = (s, false) := by
  cases e with
  | toggleFreeze => exact absurd rfl he
  | tick => simp [stepEvent, hs]
  | response r =>
      by_cases hp : r.pitch = JVal.undef
      · simp [stepEvent, hp]
      · simp [stepEvent, hp, applyResponse, hs]

/-- C4: while frozen, every worker response that arrives is discarded and no
analysis request is dispatched: running any sequence of non-toggle events from
a frozen state leaves the published formants and the history buffer exactly as
they were at the moment of freezing, with zero dispatches. -/
theorem freeze_discards_inflight_responses (s : AppState) (evs : List AppEvent)
    (hs : s.frozen = true) (hevs : ∀ e ∈ evs, e ≠ AppEvent.toggleFreeze) :
    (runEvents s evs).formants = s.formants
    ∧ (runEvents s evs).history = s.history
    ∧ dispatchCount s evs = 0 := by
  induction evs with
  | nil => exact ⟨rfl, rfl, rfl⟩
  | cons e es ih =>
      have he : e ≠ AppEvent.toggleFreeze := hevs e (List.mem_cons_self e es)
      have hstep := stepEvent_frozen s e hs he
      have hes : ∀ e' ∈ es, e' ≠ AppEvent.toggleFreeze := fun e' h' =>
        hevs e' (List.mem_cons_of_mem e h')
      have ih' := ih hes
      constructor
      · show (runEvents (stepEvent s e).1 es).formants = s.formants
        rw [hstep]
        exact ih'.1
      constructor
      · show (runEvents (stepEvent s e).1 es).history = s.history
        rw [hstep]
        exact ih'.2.1
      · show (if (stepEvent s e).2 then 1 else 0) + dispatchCount (stepEvent s e).1 es = 0
        rw [hstep]
        simpa using ih'.2.2

/-- Witness for C4: a frozen state absorbs a tick and an in-flight response. -/
theorem freeze_discards_inflight_responses_witness :
    ((⟨true, false, ⟨1, 2, 3, 4, 5⟩, [(0, ⟨1, 2, 3, 4, 5⟩)]⟩ : AppState).frozen = true)
    ∧ (∀ e ∈ [AppEvent.tick,
          AppEvent.response ⟨JVal.fin 9, JVal.fin 8, JVal.fin 7, JVal.fin 6, JVal.fin 5⟩],
        e ≠ AppEvent.toggleFreeze)
    ∧ (runEvents ⟨true, false, ⟨1, 2, 3, 4, 5⟩, [(0, ⟨1, 2, 3, 4, 5⟩)]⟩
        [AppEvent.tick,
          AppEvent.response ⟨JVal.fin 9, JVal.fin 8, JVal.fin 7, JVal.fin 6, JVal.fin 5⟩]).formants =
        (⟨true, false, ⟨1, 2, 3, 4, 5⟩, [(0, ⟨1, 2, 3, 4, 5⟩)]⟩ : AppState).formants
    ∧ dispatchCount ⟨true, false, ⟨1, 2, 3, 4, 5⟩, [(0, ⟨1, 2, 3, 4, 5⟩)]⟩
        [AppEvent.tick,
          AppEvent.response ⟨JVal.fin 9, JVal.fin 8, JVal.fin 7, JVal.fin 6, JVal.fin 5⟩] = 0 :=
  ⟨rfl, by decide,
    (freeze_discards_inflight_responses _ _ rfl (by decide)).1,
    (freeze_discards_inflight_responses _ _ rfl (by decide)).2.2⟩

/-- C10: `computeLpcCoefficientsForDebug` is total over its edge cases: empty
input gives `[]`, a non-positive order gives `[]`, a non-positive downsample
factor behaves like factor `1`, and the decimated frame has length
`max(ceil(N / downsampleFactor), 1)` with entry `j` read by stride at index
`j · downsampleFactor`. -/
theorem compute_lpc_debug_total_edge_cases (w : ℕ → ℕ → ℚ) :
    (∀ (order dsf : ℤ), computeLpcCoefficientsForDebug w [] order dsf = [])
    ∧ (∀ (input : List ℚ) (k : ℕ) (dsf : ℤ),
        computeLpcCoefficientsForDebug w input (-(k : ℤ)) dsf = [])
    ∧ (∀ (input : List ℚ) (order : ℤ) (k : ℕ),
        computeLpcCoefficientsForDebug w input order (-(k : ℤ)) =
          computeLpcCoefficientsForDebug w input order 1)
    ∧ (∀ (input : List ℚ) (d : ℕ),
        (downsampleForLpc input (d + 1)).length =
          max (Int.ceil ((input.length : ℚ) / ((d : ℚ) + 1))).toNat 1)
    ∧ (∀ (input : List ℚ) (d : ℕ)
        (j : Fin (max (Int.ceil ((input.length : ℚ) / (((d : ℕ) + 1 : ℕ) : ℚ))).toNat 1)),
        (downsampleForLpc input (d + 1)).getD j 0 = input.getD ((j : ℕ) * (d + 1)) 0) := by
  refine ⟨fun order dsf => ?_, fun input k dsf => ?_, fun input order k => ?_,
    fun input d => ?_, fun input d j => ?_⟩
  · by_cases h : order ≤ 0 <;> simp [computeLpcCoefficientsForDebug, h]
  · have h : -(k : ℤ) ≤ 0 := neg_nonpos.mpr (Int.ofNat_nonneg k)
    simp [computeLpcCoefficientsForDebug, h]
  · by_cases h : order ≤ 0
    · simp [computeLpcCoefficientsForDebug, h]
    · have h1 : -(k : ℤ) ≤ 0 := neg_nonpos.mpr (Int.ofNat_nonneg k)
      have h2 : ¬((1 : ℤ) ≤ 0) := by norm_num
      simp [computeLpcCoefficientsForDebug, h, h1, h2]
  · simp only [downsampleForLpc, List.length_ofFn]
    norm_num
  · exact getD_ofFn _ _ _ j.isLt

/-! Lemmas for the silent-frame claim. -/

lemma getD_replicate_zero {α : Type} [Zero α] (n i : ℕ) :
    (List.replicate n (0 : α)).getD i 0 = 0 := by
  by_cases h : i < n
  · rw [List.getD_eq_getElem _ _ (by simpa using h)]
    simp
  · exact List.getD_eq_default _ _ (by simpa using not_lt.mp h)

lemma subtractMean_replicate_zero (n : ℕ) :
    subtractMeanInPlace (List.replicate n (0 : ℚ)) = List.replicate n 0 := by
  cases n with
  | zero => rfl
  | succ m =>
      simp only [subtractMeanInPlace, List.length_replicate]
      rw [if_neg (Nat.succ_ne_zero m), List.map_replicate]
      norm_num

lemma window_replicate_zero (w : ℕ → ℕ → ℚ) (n : ℕ) :
    applyHammingWindowInPlace w (List.replicate n (0 : ℚ)) = List.replicate n 0 := by
  cases n with
  | zero => rfl
  | succ m =>
      simp only [applyHammingWindowInPlace, List.length_replicate]
      rw [if_neg (Nat.succ_ne_zero m)]
      have h : ∀ i : Fin (m + 1),
          (List.replicate (m + 1) (0 : ℚ)).getD i 0 * w (m + 1) i = 0 := by
        intro i
        rw [getD_replicate_zero]
        exact zero_mul _
      calc List.ofFn (fun i : Fin (m + 1) =>
            (List.replicate (m + 1) (0 : ℚ)).getD i 0 * w (m + 1) i)
          = List.ofFn (fun _ : Fin (m + 1) => (0 : ℚ)) := congrArg _ (funext h)
        _ = List.replicate (m + 1) 0 := List.ofFn_const _ _

lemma preEmpAux_replicate_zero (a : ℚ) (m : ℕ) :
    preEmpAux a 0 (List.replicate m (0 : ℚ)) = List.replicate m 0 := by
  induction m with
  | zero => rfl
  | succ m ih =>
      show (0 - a * 0) :: preEmpAux a 0 (List.replicate m (0 : ℚ)) = _
      rw [ih]
      norm_num
      rfl

lemma preEmphasize_replicate_zero (a : ℚ) (n : ℕ) :
    preEmphasizeInPlace a (List.replicate n (0 : ℚ)) = List.replicate n 0 := by
  cases n with
  | zero => rfl
  | succ m =>
      show (1 - a) * 0 :: preEmpAux a 0 (List.replicate m (0 : ℚ)) = _
      rw [preEmpAux_replicate_zero]
      norm_num
      rfl

lemma preprocess_replicate_zero (w : ℕ → ℕ → ℚ) (a : ℚ) (n : ℕ) :
    preprocessSignalForLpc w a (List.replicate n (0 : ℚ)) = List.replicate n 0 := by
  unfold preprocessSignalForLpc
  rw [subtractMean_replicate_zero, window_replicate_zero, preEmphasize_replicate_zero]

lemma autocorrelate_replicate_zero (n L : ℕ) :
    autocorrelateForLpc (List.replicate n (0 : ℚ)) L = List.replicate (L + 1) 0 := by
  have h : ∀ lag : Fin (L + 1), autoAcc (List.replicate n (0 : ℚ)) lag = 0 := by
    intro lag
    rw [autoAcc_eq]
    refine Finset.sum_eq_zero fun i _ => ?_
    rw [getD_replicate_zero]
    exact zero_mul _
  simp only [autocorrelateForLpc]
  calc List.ofFn (fun lag : Fin (L + 1) => autoAcc (List.replicate n (0 : ℚ)) lag)
      = List.ofFn (fun _ : Fin (L + 1) => (0 : ℚ)) := congrArg _ (funext h)
    _ = List.replicate (L + 1) 0 := List.ofFn_const _ _

lemma lvIter_zero_r (r : List ℚ) (hr : ∀ k, r.getD k 0 = 0) :
    ∀ i, lvIter r i = (fun j => if j = 0 then (1 : ℚ) else 0, lpcEpsilon) := by
  intro i
  induction i with
  | zero =>
      show lvInit r = _
      unfold lvInit
      rw [hr 0]
      norm_num [lpcEpsilon]
  | succ i ih =>
      show lvStep r (i + 1) (lvIter r i) = _
      rw [ih]
      dsimp only [lvStep]
      have hsum : ∑ j in Finset.Ico 1 (i + 1),
          (if j = 0 then (1 : ℚ) else 0) * r.getD (i + 1 - j) 0 = 0 :=
        Finset.sum_eq_zero fun j _ => by rw [hr]; exact mul_zero _
      rw [hr (i + 1), hsum]
      have hk : -((0 : ℚ) + 0) / lpcEpsilon = 0 := by norm_num
      rw [hk]
      apply Prod.ext
      · funext j
        by_cases hj : j = i + 1
        · simp [hj]
        · by_cases hj' : 1 ≤ j ∧ j < i + 1
          · simp [hj, hj']
          · simp [hj, hj']
      · norm_num

/-- C2: for a silent (all-zero) frame run through the full preprocessing and
autocorrelation pipeline, the LPC solver returns `a[0] = 1` with all remaining
coefficients zero, and the prediction-error energy stays clamped at the
`1e-12` floor after every iteration (so every division is by a nonzero
energy). -/
theorem levinson_silent_input_unit_coefficients (w : ℕ → ℕ → ℚ) (a : ℚ) (n L : ℕ) :
    levinsonForLpc L
        (autocorrelateForLpc (preprocessSignalForLpc w a (List.replicate n 0)) L) =
      some (1 :: List.replicate L 0)
    ∧ lvEnergies
        (autocorrelateForLpc (preprocessSignalForLpc w a (List.replicate n 0)) L) L =
      List.replicate (L + 1) lpcEpsilon
    ∧ 0 < lpcEpsilon := by
  rw [preprocess_replicate_zero, autocorrelate_replicate_zero]
  have hr : ∀ k, (List.replicate (L + 1) (0 : ℚ)).getD k 0 = 0 := fun k =>
    getD_replicate_zero _ _
  have hlv := lvIter_zero_r _ hr
  refine ⟨?_, ?_, by norm_num [lpcEpsilon]⟩
  · unfold levinsonForLpc
    rw [if_neg (by simp)]
    congr 1
    rw [hlv L, List.ofFn_succ]
    simp
  · unfold lvEnergies
    calc List.ofFn (fun i : Fin (L + 1) => (lvIter (List.replicate (L + 1) 0) i).2)
        = List.ofFn (fun _ : Fin (L + 1) => lpcEpsilon) := by
          refine congrArg _ (funext fun i => ?_)
          rw [hlv i]
      _ = List.replicate (L + 1) lpcEpsilon := List.ofFn_const _ _

/-! Lemmas for the preprocessing-pipeline claim. -/

lemma subtractMean_length {α : Type} [Field α] (l : List α) :
    (subtractMeanInPlace l).length = l.length := by
  unfold subtractMeanInPlace
  split <;> simp

lemma window_length {α : Type} [Field α] (w : ℕ → ℕ → α) (l : List α) :
    (applyHammingWindowInPlace w l).length = l.length := by
  unfold applyHammingWindowInPlace
  split <;> simp

lemma preEmpAux_length {α : Type} [Field α] (a : α) :
    ∀ (l : List α) (prev : α), (preEmpAux a prev l).length = l.length := by
  intro l
  induction l with
  | nil => intro prev; rfl
  | cons x xs ih => intro prev; simp [preEmpAux, ih]

lemma preEmphasize_length {α : Type} [Field α] (a : α) (l : List α) :
    (preEmphasizeInPlace a l).length = l.length := by
  cases l with
  | nil => rfl
  | cons x xs => simp [preEmphasizeInPlace, preEmpAux_length]

lemma subtractMean_getD {α : Type} [Field α] (l : List α) (i : ℕ) (h : i < l.length) :
    (subtractMeanInPlace l).getD i 0 = l.getD i 0 - l.sum / (l.length : α) := by
  have hne : l.length ≠ 0 := by omega
  unfold subtractMeanInPlace
  rw [if_neg hne, List.getD_eq_getElem _ _ (by simpa using h), List.getElem_map,
    List.getD_eq_getElem _ _ h]

lemma window_getD {α : Type} [Field α] (w : ℕ → ℕ → α) (l : List α) (i : ℕ)
    (h : i < l.length) :
    (applyHammingWindowInPlace w l).getD i 0 = l.getD i 0 * w l.length i := by
  have hne : l.length ≠ 0 := by omega
  unfold applyHammingWindowInPlace
  rw [if_neg hne, getD_ofFn _ _ _ h]

lemma preEmpAux_getD {α : Type} [Field α] (a : α) :
    ∀ (xs : List α) (prev : α) (i : ℕ), i < xs.length →
      (preEmpAux a prev xs).getD i 0 =
        xs.getD i 0 - a * (if i = 0 then prev else xs.getD (i - 1) 0) := by
  intro xs
  induction xs with
  | nil => intro prev i h; simp at h
  | cons x xs ih =>
      intro prev i h
      cases i with
      | zero => simp [preEmpAux]
      | succ i =>
          have h' : i < xs.length := by simpa using h
          show (preEmpAux a x xs).getD i 0 = _
          rw [ih x i h']
          rw [if_neg (Nat.succ_ne_zero i), List.getD_cons_succ, Nat.succ_sub_one]
          cases i with
          | zero => rw [if_pos rfl, List.getD_cons_zero]
          | succ j => rw [if_neg (Nat.succ_ne_zero j), List.getD_cons_succ, Nat.succ_sub_one]

lemma preEmphasize_getD_zero {α : Type} [Field α] (a : α) (z : List α) :
    (preEmphasizeInPlace a z).getD 0 0 = (1 - a) * z.getD 0 0 := by
  cases z with
  | nil => simp [preEmphasizeInPlace]
  | cons x xs => simp [preEmphasizeInPlace]

lemma preEmphasize_getD_succ {α : Type} [Field α] (a : α) (z : List α) (i : ℕ)
    (h : i + 1 < z.length) :
    (preEmphasizeInPlace a z).getD (i + 1) 0 = z.getD (i + 1) 0 - a * z.getD i 0 := by
  cases z with
  | nil => simp at h
  | cons x xs =>
      have h' : i < xs.length := by simpa using h
      show (preEmpAux a x xs).getD i 0 = _
      rw [preEmpAux_getD a xs x i h']
      cases i with
      | zero => simp
      | succ j => simp [List.getD_cons_succ]

/-- C6: the preprocessor applies exactly three steps in order — mean
subtraction (identity on the empty frame), then the window
`w[i] = 0.54 − 0.46·cos(2π·i/(N−1))` elementwise, then pre-emphasis
`y[0] = (1−α)·x[0]`, `y[i] = x[i] − α·x[i−1]` over the original (post-window)
samples — and the output length equals the input length. -/
theorem preprocess_three_steps_in_order (x : List ℝ) (a : ℝ) :
    preprocessSignalForLpc hammingWeightR a x =
      preEmphasizeInPlace a
        (applyHammingWindowInPlace hammingWeightR (subtractMeanInPlace x))
    ∧ (preprocessSignalForLpc hammingWeightR a x).length = x.length
    ∧ subtractMeanInPlace ([] : List ℝ) = []
    ∧ (∀ i : Fin x.length,
        (subtractMeanInPlace x).getD i 0 = x.getD i 0 - x.sum / (x.length : ℝ))
    ∧ (∀ i : Fin (subtractMeanInPlace x).length,
        (applyHammingWindowInPlace hammingWeightR (subtractMeanInPlace x)).getD i 0 =
          (subtractMeanInPlace x).getD i 0 *
            (0.54 - 0.46 * Real.cos (2 * Real.pi *
              ((i : ℝ) / (((subtractMeanInPlace x).length : ℝ) - 1)))))
    ∧ ((preprocessSignalForLpc hammingWeightR a x).getD 0 0 =
        (1 - a) *
          (applyHammingWindowInPlace hammingWeightR (subtractMeanInPlace x)).getD 0 0)
    ∧ (∀ i : Fin
          ((applyHammingWindowInPlace hammingWeightR (subtractMeanInPlace x)).length - 1),
        (preprocessSignalForLpc hammingWeightR a x).getD ((i : ℕ) + 1) 0 =
          (applyHammingWindowInPlace hammingWeightR (subtractMeanInPlace x)).getD
            ((i : ℕ) + 1) 0
          - a * (applyHammingWindowInPlace hammingWeightR
              (subtractMeanInPlace x)).getD (i : ℕ) 0) := by
  refine ⟨rfl, ?_, rfl, fun i => subtractMean_getD x i i.isLt, fun i => ?_, ?_, fun i => ?_⟩
  · unfold preprocessSignalForLpc
    rw [preEmphasize_length, window_length, subtractMean_length]
  · exact window_getD hammingWeightR _ i i.isLt
  · exact preEmphasize_getD_zero a _
  · have h : (i : ℕ) + 1 <
        (applyHammingWindowInPlace hammingWeightR (subtractMeanInPlace x)).length := by
      have := i.isLt
      omega
    exact preEmphasize_getD_succ a _ i h

/-! Lemmas for the history-buffer claim. -/

lemma tagHist_length {α : Type} (rs : List α) : (tagHist rs).length = rs.length := by
  simp [tagHist]

lemma tagHist_append_singleton {α : Type} (rs : List α) (s : α) :
    tagHist (rs ++ [s]) = tagHist rs ++ [(FORMANT_INTERVAL_MS * rs.length, s)] := by
  unfold tagHist
  rw [List.length_append, List.length_singleton, List.range_succ,
    List.zip_append (by simp), List.map_append]
  rfl

lemma tagHist_last {α : Type} (l : List α) (hne : l ≠ []) :
    ∃ p : ℕ × α, (tagHist l).getLast? = some p
      ∧ p.1 = FORMANT_INTERVAL_MS * (l.length - 1) := by
  induction l using List.reverseRecOn with
  | nil => exact absurd rfl hne
  | append_singleton l' s' _ =>
      rw [tagHist_append_singleton]
      exact ⟨(FORMANT_INTERVAL_MS * l'.length, s'), List.getLast?_concat _, by simp⟩

lemma getLast?_drop_of_lt {β : Type} :
    ∀ (k : ℕ) (l : List β), k < l.length → (l.drop k).getLast? = l.getLast? := by
  intro k
  induction k with
  | zero => intro l _; rfl
  | succ k ih =>
      intro l h
      cases l with
      | nil => simp at h
      | cons x xs =>
          show (xs.drop k).getLast? = (x :: xs).getLast?
          rw [ih xs (by simpa using h)]
          cases xs with
          | nil => simp at h
          | cons y ys => exact (List.getLast?_cons_cons).symm

lemma addFormantsToHistory_length {α : Type} (h : List (ℕ × α)) (s : α)
    (hlen : h.length ≤ MAX_HISTORY) :
    (addFormantsToHistory h s).length ≤ MAX_HISTORY := by
  unfold addFormantsToHistory
  dsimp only
  have hM : MAX_HISTORY = 1000 := rfl
  have hlen1 : ∀ e : ℕ × α, (h ++ [e]).length = h.length + 1 := by simp
  rw [hlen1]
  by_cases hc : MAX_HISTORY < h.length + 1
  · rw [if_pos hc, List.length_tail, hlen1]
    omega
  · rw [if_neg hc, hlen1]
    omega

lemma histRun_characterization {α : Type} (rs : List α) :
    histRun rs = (tagHist rs).drop (rs.length - MAX_HISTORY) := by
  have hM : MAX_HISTORY = 1000 := rfl
  have hF : FORMANT_INTERVAL_MS = 100 := rfl
  induction rs using List.reverseRecOn with
  | nil => simp [histRun, tagHist]
  | append_singleton l s ih =>
      have hfold : histRun (l ++ [s]) = addFormantsToHistory (histRun l) s := by
        unfold histRun
        rw [List.foldl_append]
        rfl
      rw [hfold, ih]
      have hlen_tag : (tagHist l).length = l.length := tagHist_length l
      rcases Nat.eq_zero_or_pos l.length with h0 | hpos
      · have hl : l = [] := List.length_eq_zero.mp h0
        subst hl
        simp [addFormantsToHistory, tagHist, MAX_HISTORY, FORMANT_INTERVAL_MS,
          List.range_succ]
      · have hlne : l ≠ [] := by
          intro h
          rw [h] at hpos
          simp at hpos
        obtain ⟨p, hp, hp1⟩ := tagHist_last l hlne
        have hdrop_last :
            ((tagHist l).drop (l.length - MAX_HISTORY)).getLast? = some p := by
          rw [getLast?_drop_of_lt _ _ (by omega)]
          exact hp
        have hdrop_len :
            ((tagHist l).drop (l.length - MAX_HISTORY)).length =
              l.length - (l.length - MAX_HISTORY) := by
          rw [List.length_drop, hlen_tag]
        dsimp only [addFormantsToHistory]
        have hnt : (if ((tagHist l).drop (l.length - MAX_HISTORY)).length = 0 then 0
            else ((((tagHist l).drop (l.length - MAX_HISTORY)).getLast?.map
              Prod.fst).getD 0) + FORMANT_INTERVAL_MS) =
            FORMANT_INTERVAL_MS * l.length := by
          rw [if_neg (by rw [hdrop_len]; omega), hdrop_last]
          simp only [Option.map_some', Option.getD_some]
          rw [hp1, hF]
          omega
        rw [hnt]
        have happ : (tagHist l).drop (l.length - MAX_HISTORY) ++
              [(FORMANT_INTERVAL_MS * l.length, s)] =
            (tagHist (l ++ [s])).drop (l.length - MAX_HISTORY) := by
          rw [tagHist_append_singleton,
            List.drop_append_of_le_length (by omega)]
        rw [happ]
        have hlen_tag' : (tagHist (l ++ [s])).length = l.length + 1 := by
          rw [tagHist_length, List.length_append, List.length_singleton]
        have hlen_app : ((tagHist (l ++ [s])).drop (l.length - MAX_HISTORY)).length =
            (l.length + 1) - (l.length - MAX_HISTORY) := by
          rw [List.length_drop, hlen_tag']
        rw [List.length_append, List.length_singleton]
        split
        · rename_i hcond
          rw [hlen_app] at hcond
          rw [List.tail_drop]
          have hidx : l.length - MAX_HISTORY + 1 = l.length + 1 - MAX_HISTORY := by
            omega
          rw [hidx]
        · rename_i hcond
          rw [hlen_app] at hcond
          have hidx : l.length - MAX_HISTORY = l.length + 1 - MAX_HISTORY := by
            omega
          rw [hidx]

lemma tagHist_map_fst {α : Type} (rs : List α) :
    (tagHist rs).map Prod.fst =
      (List.range rs.length).map (fun i => FORMANT_INTERVAL_MS * i) := by
  unfold tagHist
  rw [List.map_map]
  calc ((List.range rs.length).zip rs).map
        (Prod.fst ∘ fun p : ℕ × α => (FORMANT_INTERVAL_MS * p.1, p.2))
      = (((List.range rs.length).zip rs).map Prod.fst).map
          (fun i => FORMANT_INTERVAL_MS * i) := by
        rw [List.map_map]
        rfl
    _ = (List.range rs.length).map (fun i => FORMANT_INTERVAL_MS * i) := by
        rw [List.map_fst_zip _ _ (by simp)]

lemma histRun_times_sorted {α : Type} (rs : List α) :
    List.Sorted (· < ·) ((histRun rs).map Prod.fst) := by
  rw [histRun_characterization, List.map_drop, tagHist_map_fst]
  refine List.Pairwise.sublist (List.drop_sublist _ _) ?_
  refine List.Pairwise.map _ ?_ (List.sorted_lt_range rs.length)
  intro a b hab
  unfold FORMANT_INTERVAL_MS
  omega

/-- C5: the formant history buffer never exceeds `MAX_HISTORY`; starting from
empty, after `n` insertions it holds exactly the last `min n MAX_HISTORY`
samples in insertion order tagged with virtual times `FORMANT_INTERVAL_MS·i`
(so after `MAX_HISTORY + 1` insertions precisely the first sample is gone),
and the stored timestamps are strictly increasing. -/
theorem history_capacity_order_times :
    (∀ (h : List (ℕ × Formants)) (s : Formants), h.length ≤ MAX_HISTORY →
        (addFormantsToHistory h s).length ≤ MAX_HISTORY)
    ∧ (∀ rs : List Formants,
        histRun rs = (tagHist rs).drop (rs.length - MAX_HISTORY))
    ∧ (∀ rs : List Formants, rs.length = MAX_HISTORY + 1 →
        histRun rs = (tagHist rs).drop 1)
    ∧ (∀ rs : List Formants, List.Sorted (· < ·) ((histRun rs).map Prod.fst)) := by
  refine ⟨addFormantsToHistory_length, histRun_characterization, fun rs h => ?_,
    histRun_times_sorted⟩
  rw [histRun_characterization, h]
  rfl

/-- Witness for C5: the empty buffer accepts an insertion within capacity, and
`MAX_HISTORY + 1` insertions evict exactly the first sample. -/
theorem history_capacity_order_times_witness :
    (([] : List (ℕ × Formants)).length ≤ MAX_HISTORY)
    ∧ (addFormantsToHistory ([] : List (ℕ × Formants)) ⟨0, 0, 0, 0, 0⟩).length ≤
        MAX_HISTORY
    ∧ (List.replicate (MAX_HISTORY + 1) (⟨0, 0, 0, 0, 0⟩ : Formants)).length =
        MAX_HISTORY + 1
    ∧ histRun (List.replicate (MAX_HISTORY + 1) (⟨0, 0, 0, 0, 0⟩ : Formants)) =
        (tagHist (List.replicate (MAX_HISTORY + 1) (⟨0, 0, 0, 0, 0⟩ : Formants))).drop 1 :=
  ⟨by simp [MAX_HISTORY],
    history_capacity_order_times.1 [] ⟨0, 0, 0, 0, 0⟩ (by simp [MAX_HISTORY]),
    by simp,
    history_capacity_order_times.2.2.1 _ (by simp)⟩

/-! Agreement of the code-side Levinson iteration (fixed-size coefficient
array as a function zero outside `[0, i]`) with the spec-side recursion
(coefficient vector grown by one entry per iteration). -/

lemma lv_agree (r : List ℚ) : ∀ i : ℕ,
    (lvSpecIter r i).1.length = i + 1
    ∧ (lvSpecIter r i).1.getD 0 0 = 1
    ∧ (lvIter r i).2 = (lvSpecIter r i).2
    ∧ ∀ j : ℕ, (lvIter r i).1 j = (lvSpecIter r i).1.getD j 0 := by
  intro i
  induction i with
  | zero =>
      refine ⟨rfl, rfl, rfl, fun j => ?_⟩
      cases j with
      | zero => rfl
      | succ j => rfl
  | succ i ih =>
      obtain ⟨hlen, h0, he, ha⟩ := ih
      have hsum : ∑ j in Finset.Ico 1 (i + 1),
            (lvIter r i).1 j * r.getD (i + 1 - j) 0 =
          ∑ j in Finset.Ico 1 (i + 1),
            (lvSpecIter r i).1.getD j 0 * r.getD (i + 1 - j) 0 :=
        Finset.sum_congr rfl fun j _ => by rw [ha j]
      have hk : -(r.getD (i + 1) 0 + ∑ j in Finset.Ico 1 (i + 1),
              (lvIter r i).1 j * r.getD (i + 1 - j) 0) / (lvIter r i).2 =
          -(r.getD (i + 1) 0 + ∑ j in Finset.Ico 1 (i + 1),
              (lvSpecIter r i).1.getD j 0 * r.getD (i + 1 - j) 0) /
            (lvSpecIter r i).2 := by
        rw [hsum, he]
      refine ⟨?_, ?_, ?_, ?_⟩
      · show (lvSpecStep r (i + 1) (lvSpecIter r i)).1.length = i + 1 + 1
        dsimp only [lvSpecStep]
        rw [List.length_ofFn]
      · show (lvSpecStep r (i + 1) (lvSpecIter r i)).1.getD 0 0 = 1
        dsimp only [lvSpecStep]
        rw [getD_ofFn _ _ 0 (by omega)]
        rfl
      · show (lvStep r (i + 1) (lvIter r i)).2 =
          (lvSpecStep r (i + 1) (lvSpecIter r i)).2
        dsimp only [lvStep, lvSpecStep]
        rw [hk, he, pow_two]
      · intro j
        show (lvStep r (i + 1) (lvIter r i)).1 j =
          (lvSpecStep r (i + 1) (lvSpecIter r i)).1.getD j 0
        dsimp only [lvStep, lvSpecStep]
        rw [hk]
        by_cases hj2 : j < i + 1 + 1
        · rw [getD_ofFn _ _ j hj2]
          dsimp only
          rcases Nat.eq_zero_or_pos j with hj0 | hjpos
          · subst hj0
            rw [if_neg (by omega : ¬(0 : ℕ) = i + 1),
              if_neg (by omega : ¬(1 ≤ 0 ∧ 0 < i + 1)), if_pos rfl, ha 0, h0]
          · by_cases hji : j = i + 1
            · rw [if_pos hji, if_neg (by omega : ¬j = 0), if_pos hji]
            · have hjlt : j < i + 1 := by omega
              rw [if_neg hji, if_pos ⟨hjpos, hjlt⟩, if_neg (by omega : ¬j = 0),
                if_neg hji, ha j, ha (i + 1 - j)]
        · have hji : ¬j = i + 1 := by omega
          have hjlt : ¬(1 ≤ j ∧ j < i + 1) := by omega
          rw [if_neg hji, if_neg hjlt, ha j,
            List.getD_eq_default _ _ (by omega : (lvSpecIter r i).1.length ≤ j),
            List.getD_eq_default _ _ (by rw [List.length_ofFn]; omega)]

/-- C1: for every autocorrelation input with `length r ≥ L + 1`, the
Levinson-Durbin solver succeeds and returns exactly the coefficient vector of
the spec's reference recursion: length `L + 1`, `a[0] = 1`, energy
initialised to `r[0]` clamped at the `1e-12` floor, reflection coefficient
`k = −(r[i] + Σ_{j=1}^{i−1} a[j]·r[i−j]) / e`, update `a'[j] = a[j] + k·a[i−j]`,
`a'[i] = k`, and `e := e·(1−k²)` floored at the same epsilon. -/
theorem levinson_matches_reference_recursion (L : ℕ) (r : List ℚ)
    (h : L + 1 ≤ r.length) :
    levinsonForLpc L r = some (levinsonSpec L r)
    ∧ (levinsonSpec L r).length = L + 1
    ∧ (levinsonSpec L r).getD 0 0 = 1 := by
  obtain ⟨hlen, h0, _, ha⟩ := lv_agree r L
  refine ⟨?_, hlen, h0⟩
  unfold levinsonForLpc
  rw [if_neg (by omega)]
  unfold levinsonSpec
  congr 1
  refine List.ext_getElem ?_ fun n h1 h2 => ?_
  · rw [List.length_ofFn, hlen]
  · rw [List.getElem_ofFn]
    have han := ha n
    rw [List.getD_eq_getElem _ _ h2] at han
    exact han

/-- Witness for C1 at `L = 2`, `r = [1, 1/2, 1/3]`. -/
theorem levinson_matches_reference_recursion_witness :
    2 + 1 ≤ ([1, 1/2, 1/3] : List ℚ).length
    ∧ (levinsonForLpc 2 [1, 1/2, 1/3] = some (levinsonSpec 2 [1, 1/2, 1/3])
        ∧ (levinsonSpec 2 [1, 1/2, 1/3]).length = 2 + 1
        ∧ (levinsonSpec 2 [1, 1/2, 1/3]).getD 0 0 = 1) :=
  ⟨by decide, levinson_matches_reference_recursion 2 [1, 1/2, 1/3] (by decide)⟩

end Ezformant
